import Mathlib

/-!
# Verification of the LLM-response extraction and validation pipeline

Shallow embedding of `src/claude-client.ts` from the `claude-init`
repository: the `extractJson` / `repairJson` extraction pipeline and the
post-extraction validation logic of `analyzeCodebase` and
`generateFromIdea`, together with the keyword-scan fallback
`createIntelligentFallback`.

Strings are modelled as `List Char`.  The JavaScript regular expressions
used by the source are modelled by dedicated scanning functions whose
observable behaviour (leftmost match, greedy/lazy quantifier semantics)
follows the JS engine; each function's doc comment names the regex it
embeds.  `JSON.parse` / `JSON.stringify` are platform builtins and are
modelled by a recursive-descent parser and a compact printer over a
`Json` value type (numeric literals are modelled as integers; fractional
and exponent forms are outside the model).
-/

/-- Strings are modelled as lists of characters. -/
abbrev Str := List Char

/-- The backtick character (written via its code point). -/
def btick : Char := '\x60'

/-- JS regex `\s` class, restricted to the ASCII whitespace characters
that can occur in the inputs of interest (space, tab, newline, carriage
return, vertical tab, form feed). -/
def jsWsChar (c : Char) : Bool :=
  c = ' ' || c = '\t' || c = '\n' || c = '\r' || c = '\x0b' || c = '\x0c'

/-- JSON whitespace as accepted by `JSON.parse` (space, tab, newline,
carriage return). -/
def jsonWsChar (c : Char) : Bool :=
  c = ' ' || c = '\t' || c = '\n' || c = '\r'

/-- JS regex `\w` class: ASCII letters, digits and underscore. -/
def wordChar (c : Char) : Bool :=
  c.isAlpha || c.isDigit || c = '_'

/-- Does `t` start with `p`? (model of a literal-prefix test). -/
def startsWithS : Str → Str → Bool
  | _, [] => true
  | [], _ :: _ => false
  | a :: as, b :: bs => a = b && startsWithS as bs

/-- Does `t` contain `p` as a contiguous substring?  Model of JS
`String.prototype.includes`. -/
def containsS : Str → Str → Bool
  | [], p => startsWithS [] p
  | c :: r, p => startsWithS (c :: r) p || containsS r p

/-- Model of JS `String.prototype.trim` (whitespace from both ends). -/
def trimS (t : Str) : Str :=
  ((t.dropWhile jsWsChar).reverse.dropWhile jsWsChar).reverse

/-- Model of JS `String.prototype.toLowerCase` on ASCII text. -/
def lowerS (t : Str) : Str := t.map Char.toLower

/-- Index of the first occurrence of character `c` in `t`
(model of JS `String.prototype.indexOf` restricted to a single char). -/
def idxOfChar : Str → Char → Option Nat
  | [], _ => none
  | a :: r, c => if a = c then some 0 else (idxOfChar r c).map (· + 1)

/-- Index of the last occurrence of character `c` in `t`. -/
def lastIdxOfChar (t : Str) (c : Char) : Option Nat :=
  match idxOfChar t.reverse c with
  | none => none
  | some j => some (t.length - 1 - j)

mutual
/-- JSON values, as produced by the model of `JSON.parse`.  Numeric
literals are modelled as integers. -/
inductive Json where
  | null : Json
  | jbool : Bool → Json
  | jnum : Int → Json
  | jstr : Str → Json
  | jarr : JList → Json
  | jobj : JFields → Json
  deriving DecidableEq

/-- A list of JSON values (array elements, in order). -/
inductive JList where
  | nil : JList
  | cons : Json → JList → JList
  deriving DecidableEq

/-- Object fields in insertion order (JS objects preserve it). -/
inductive JFields where
  | fnil : JFields
  | fcons : Str → Json → JFields → JFields
  deriving DecidableEq
end

/-- Field lookup: value of the first (and in parsed objects, only)
binding of `key`.  Model of JS property read (missing = `undefined`,
here `none`). -/
def lookupF : JFields → Str → Option Json
  | .fnil, _ => none
  | .fcons k v t, key => if k = key then some v else lookupF t key

/-- Model of JS `Object.prototype.hasOwnProperty`. -/
def hasOwnF (fs : JFields) (key : Str) : Bool := (lookupF fs key).isSome

/-- Model of JS property assignment on an object: replaces the value in
place if the key exists, otherwise appends the binding at the end
(JS insertion-order semantics). -/
def setF : JFields → Str → Json → JFields
  | .fnil, key, v => .fcons key v .fnil
  | .fcons k0 v0 t, key, v =>
      if k0 = key then .fcons k0 v t else .fcons k0 v0 (setF t key v)

/-- JS truthiness of a JSON value (`null`, `false`, `0` and the empty
string are falsy; arrays and objects are always truthy). -/
def jsTruthy : Json → Bool
  | .null => false
  | .jbool b => b
  | .jnum n => n != 0
  | .jstr s => !s.isEmpty
  | .jarr _ => true
  | .jobj _ => true

/-- JS truthiness of a property read (`undefined` is falsy). -/
def jsTruthyO : Option Json → Bool
  | none => false
  | some v => jsTruthy v

/-- Skip JSON whitespace. -/
def skipWsJ (t : Str) : Str := t.dropWhile jsonWsChar

/-- Hex digit value, for `\uXXXX` escapes (code-point arithmetic:
48-57 are the digits, 97-102 lowercase a-f, 65-70 uppercase A-F). -/
def hexVal (c : Char) : Option Nat :=
  let n := c.toNat
  if 48 ≤ n && n ≤ 57 then some (n - 48)
  else if 97 ≤ n && n ≤ 102 then some (n - 87)
  else if 65 ≤ n && n ≤ 70 then some (n - 55)
  else none

/-- Body of a JSON string literal, after the opening quote: returns the
decoded characters and the rest of the input after the closing quote.
Models the string grammar of `JSON.parse` (short escapes, `\uXXXX`,
raw control characters rejected). -/
def parseStrBody : Nat → Str → Option (Str × Str)
  | 0, _ => none
  | _ + 1, [] => none
  | f + 1, c :: r =>
      if c = '"' then some ([], r)
      else if c = '\\' then
        match r with
        | [] => none
        | e :: r2 =>
            if e = '"' then (parseStrBody f r2).map (fun p => ('"' :: p.1, p.2))
            else if e = '\\' then (parseStrBody f r2).map (fun p => ('\\' :: p.1, p.2))
            else if e = '/' then (parseStrBody f r2).map (fun p => ('/' :: p.1, p.2))
            else if e = 'b' then (parseStrBody f r2).map (fun p => ('\x08' :: p.1, p.2))
            else if e = 'f' then (parseStrBody f r2).map (fun p => ('\x0c' :: p.1, p.2))
            else if e = 'n' then (parseStrBody f r2).map (fun p => ('\n' :: p.1, p.2))
            else if e = 'r' then (parseStrBody f r2).map (fun p => ('\r' :: p.1, p.2))
            else if e = 't' then (parseStrBody f r2).map (fun p => ('\t' :: p.1, p.2))
            else if e = 'u' then
              match r2 with
              | h1 :: h2 :: h3 :: h4 :: r3 =>
                  match hexVal h1, hexVal h2, hexVal h3, hexVal h4 with
                  | some a, some b, some c3, some d =>
                      (parseStrBody f r3).map
                        (fun p => (Char.ofNat (((a * 16 + b) * 16 + c3) * 16 + d) :: p.1, p.2))
                  | _, _, _, _ => none
              | _ => none
            else none
      else if c.toNat < 32 then none
      else (parseStrBody f r).map (fun p => (c :: p.1, p.2))

/-- Maximal run of ASCII digits at the head of the input. -/
def digitRun (t : Str) : Str × Str := (t.takeWhile Char.isDigit, t.dropWhile Char.isDigit)

/-- Digits to a natural number (most significant first; 48 is the code
point of the zero digit). -/
def digitsToNat (ds : Str) : Nat := ds.foldl (fun a c => 10 * a + (c.toNat - 48)) 0

/-- Integer literal of the JSON number grammar (`-?(0|[1-9][0-9]*)`);
fractional and exponent parts are outside the model. -/
def parseNum (t : Str) : Option (Int × Str) :=
  match t with
  | '-' :: r =>
      (parseNum r).bind (fun p => if p.1 < 0 then none else some (-p.1, p.2))
  | '0' :: r => some (0, r)
  | c :: _ =>
      if c.isDigit then
        let (ds, r) := digitRun t
        some ((digitsToNat ds : Int), r)
      else none
  | [] => none

/-- Assemble parsed members into object fields with JS duplicate-key
semantics (first position, last value). -/
def membersToFields (ms : List (Str × Json)) : JFields :=
  ms.foldl (fun fs kv => setF fs kv.1 kv.2) .fnil

mutual
/-- One JSON value (leading whitespace allowed); returns the rest of the
input.  Fueled recursive-descent model of the `JSON.parse` grammar. -/
def parseVal : Nat → Str → Option (Json × Str)
  | 0, _ => none
  | f + 1, t0 =>
      match skipWsJ t0 with
      | [] => none
      | c :: r =>
          if c = '{' then
            match skipWsJ r with
            | '}' :: r2 => some (.jobj .fnil, r2)
            | _ => (parseMembers f r).map (fun p => (.jobj (membersToFields p.1), p.2))
          else if c = '[' then
            match skipWsJ r with
            | ']' :: r2 => some (.jarr .nil, r2)
            | _ => (parseItems f r).map (fun p => (.jarr p.1, p.2))
          else if c = '"' then
            (parseStrBody (r.length + 1) r).map (fun p => (.jstr p.1, p.2))
          else if startsWithS (c :: r) ('t' :: 'r' :: 'u' :: 'e' :: []) then
            some (.jbool true, (c :: r).drop 4)
          else if startsWithS (c :: r) ('f' :: 'a' :: 'l' :: 's' :: 'e' :: []) then
            some (.jbool false, (c :: r).drop 5)
          else if startsWithS (c :: r) ('n' :: 'u' :: 'l' :: 'l' :: []) then
            some (.null, (c :: r).drop 4)
          else
            (parseNum (c :: r)).map (fun p => (.jnum p.1, p.2))

/-- Object members after the opening `{` (at least one member).
Duplicate keys follow JS semantics: first position, last value
(realised by the `setF` fold in `membersToFields`). -/
def parseMembers : Nat → Str → Option (List (Str × Json) × Str)
  | 0, _ => none
  | f + 1, t =>
      match skipWsJ t with
      | '"' :: r =>
          match parseStrBody (r.length + 1) r with
          | none => none
          | some (k, r1) =>
              match skipWsJ r1 with
              | ':' :: r2 =>
                  match parseVal f r2 with
                  | none => none
                  | some (v, r3) =>
                      match skipWsJ r3 with
                      | ',' :: r4 =>
                          (parseMembers f r4).map (fun p => ((k, v) :: p.1, p.2))
                      | '}' :: r4 => some ([(k, v)], r4)
                      | _ => none
              | _ => none
      | _ => none

/-- Array items after the opening `[` (at least one item). -/
def parseItems : Nat → Str → Option (JList × Str)
  | 0, _ => none
  | f + 1, t =>
      match parseVal f t with
      | none => none
      | some (v, r) =>
          match skipWsJ r with
          | ',' :: r2 => (parseItems f r2).map (fun p => (.cons v p.1, p.2))
          | ']' :: r2 => some (.cons v .nil, r2)
          | _ => none
end

/-- Model of `JSON.parse` as a total function: a complete value with
only whitespace around it, or `none` for a syntax error. -/
def parseJson (t : Str) : Option Json :=
  match parseVal (t.length + 1) t with
  | none => none
  | some (v, r) => if (skipWsJ r).isEmpty then some v else none

/-- The lowercase hex digit character of `n % 16`. -/
def hexDigit (n0 : Nat) : Char :=
  let n := n0 % 16
  if n = 0 then '0' else if n = 1 then '1' else if n = 2 then '2'
  else if n = 3 then '3' else if n = 4 then '4' else if n = 5 then '5'
  else if n = 6 then '6' else if n = 7 then '7' else if n = 8 then '8'
  else if n = 9 then '9' else if n = 10 then 'a' else if n = 11 then 'b'
  else if n = 12 then 'c' else if n = 13 then 'd' else if n = 14 then 'e'
  else 'f'

/-- Lowercase hex digits of a number, `k` digits wide. -/
def hexDigits : Nat → Nat → Str
  | 0, _ => []
  | k + 1, n => hexDigits k (n / 16) ++ [hexDigit n]

/-- `JSON.stringify` escaping of one string character: quote and
backslash escaped, control characters via short escapes or `\u00xx`,
everything else literal. -/
def escChar (c : Char) : Str :=
  if c = '"' then '\\' :: '"' :: []
  else if c = '\\' then '\\' :: '\\' :: []
  else if c = '\x08' then '\\' :: 'b' :: []
  else if c = '\t' then '\\' :: 't' :: []
  else if c = '\n' then '\\' :: 'n' :: []
  else if c = '\x0c' then '\\' :: 'f' :: []
  else if c = '\r' then '\\' :: 'r' :: []
  else if c.toNat < 32 then '\\' :: 'u' :: hexDigits 4 c.toNat
  else [c]

/-- Decimal digits of a natural number (fueled). -/
def natDigitsF : Nat → Nat → Str
  | 0, _ => []
  | f + 1, n =>
      if n < 10 then [hexDigit n]
      else natDigitsF f (n / 10) ++ [hexDigit (n % 10)]

/-- Decimal representation of an integer, as printed by
`JSON.stringify`. -/
def intToStr (n : Int) : Str :=
  if n < 0 then '-' :: natDigitsF (n.natAbs + 1) n.natAbs
  else natDigitsF (n.toNat + 1) n.toNat

mutual
/-- Model of `JSON.stringify` with no spacing argument: compact output,
object keys in insertion order. -/
def stringifyV : Json → Str
  | .null => 'n' :: 'u' :: 'l' :: 'l' :: []
  | .jbool true => 't' :: 'r' :: 'u' :: 'e' :: []
  | .jbool false => 'f' :: 'a' :: 'l' :: 's' :: 'e' :: []
  | .jnum n => intToStr n
  | .jstr s => '"' :: (stringifyStr s ++ ['"'])
  | .jarr .nil => '[' :: ']' :: []
  | .jarr (.cons j t) => '[' :: (stringifyV j ++ stringifyItems t ++ [']'])
  | .jobj .fnil => '{' :: '}' :: []
  | .jobj (.fcons k v t) =>
      '{' :: ('"' :: (stringifyStr k ++ '"' :: ':' :: stringifyV v) ++
        stringifyFields t ++ ['}'])

/-- Remaining array items, each preceded by a comma. -/
def stringifyItems : JList → Str
  | .nil => []
  | .cons j t => ',' :: (stringifyV j ++ stringifyItems t)

/-- Remaining object fields, each preceded by a comma. -/
def stringifyFields : JFields → Str
  | .fnil => []
  | .fcons k v t =>
      ',' :: '"' :: (stringifyStr k ++ '"' :: ':' :: stringifyV v) ++ stringifyFields t

/-- Escaped body of a string literal. -/
def stringifyStr : Str → Str
  | [] => []
  | c :: r => escChar c ++ stringifyStr r
end

/-- The literal ` ``` ` fence marker. -/
def fenceTicks : Str := btick :: btick :: btick :: []

/-- The literal ` ```json ` opening marker. -/
def fenceJsonLit : Str := fenceTicks ++ ('j' :: 's' :: 'o' :: 'n' :: [])

/-- Closing part `\n\s*` followed by ` ``` ` of the fence regexes, as a
prefix of `t`: returns the number of characters consumed.  The greedy
`\s*` is forced to the maximal whitespace run because a backtick is not
whitespace. -/
def matchCloseFence : Str → Option Nat
  | [] => none
  | c :: rest =>
      if c = '\n' then
        let j := (rest.takeWhile jsWsChar).length
        if startsWithS (rest.drop j) fenceTicks then some (1 + j + 3) else none
      else none

/-- Lazy `([\s\S]*?)` before the closing fence: the smallest content
length at which `matchCloseFence` succeeds, together with the length of
the closing part. -/
def findClose : Str → Option (Nat × Nat)
  | [] => (matchCloseFence []).map (fun n => (0, n))
  | c :: r =>
      match matchCloseFence (c :: r) with
      | some n => some (0, n)
      | none => (findClose r).map (fun p => (p.1 + 1, p.2))

/-- Positions of `'\n'` inside the maximal whitespace run at the head of
`t`, ascending: the candidate split points of the greedy `\s*\n` after
the opening fence marker. -/
def nlPossInWsRun : Str → List Nat
  | [] => []
  | c :: r =>
      if jsWsChar c then
        (if c = '\n' then [0] else []) ++ (nlPossInWsRun r).map (· + 1)
      else []

/-- First `some` value of `f` over a list (backtracking order). -/
def firstSome {α β : Type} (f : α → Option β) : List α → Option β
  | [] => none
  | a :: r => match f a with | some b => some b | none => firstSome f r

/-- One attempt of `/```json\s*\n([\s\S]*?)\n\s*```/` at the head of `t`:
the opening literal, then the greedy `\s*\n` (larger splits first), then
the lazy content.  Returns (whole match, captured group 1). -/
def r1At (t : Str) : Option (Str × Str) :=
  if startsWithS t fenceJsonLit then
    let t1 := t.drop 7
    match firstSome
        (fun k => (findClose (t1.drop (k + 1))).map (fun p => (k, p)))
        (nlPossInWsRun t1).reverse with
    | some (k, c, n) =>
        some (t.take (7 + (k + 1) + c + n), (t1.drop (k + 1)).take c)
    | none => none
  else none

/-- Leftmost match of `/```json\s*\n([\s\S]*?)\n\s*```/`
(first strategy of `extractJson`, claude-client.ts line 22). -/
def matchR1 : Str → Option (Str × Str)
  | [] => none
  | c :: r => match r1At (c :: r) with | some res => some res | none => matchR1 r

/-- One attempt of `/```\s*\n([\s\S]*?)\n\s*```/` at the head of `t`. -/
def r2At (t : Str) : Option (Str × Str) :=
  if startsWithS t fenceTicks then
    let t1 := t.drop 3
    match firstSome
        (fun k => (findClose (t1.drop (k + 1))).map (fun p => (k, p)))
        (nlPossInWsRun t1).reverse with
    | some (k, c, n) =>
        some (t.take (3 + (k + 1) + c + n), (t1.drop (k + 1)).take c)
    | none => none
  else none

/-- Leftmost match of `/```\s*\n([\s\S]*?)\n\s*```/`
(second strategy of `extractJson`, claude-client.ts line 23). -/
def matchR2 : Str → Option (Str × Str)
  | [] => none
  | c :: r => match r2At (c :: r) with | some res => some res | none => matchR2 r

/-- Match of `/(\{[\s\S]*\})/` (third strategy of `extractJson`,
claude-client.ts line 24): from the first `{` to the last `}` after it.
The capture equals the whole match. -/
def matchR3 (t : Str) : Option (Str × Str) :=
  match idxOfChar t '{' with
  | none => none
  | some i =>
      match lastIdxOfChar t '}' with
      | none => none
      | some j =>
          if i < j then
            let m := (t.drop i).take (j - i + 1)
            some (m, m)
          else none

/-- Match of the lazy `/(\{[\s\S]*?\})/` (claude-client.ts line 51):
from the first `{` to the first `}` after it. -/
def objectMatchLazy (t : Str) : Option Str :=
  match idxOfChar t '{' with
  | none => none
  | some i =>
      match idxOfChar (t.drop (i + 1)) '}' with
      | none => none
      | some d => some ((t.drop i).take (d + 2))

/-- Not a brace (the `[^{}]` class). -/
def nonBrace (c : Char) : Bool := !(c = '{' || c = '}')

/-- Tail of the last-resort regex `/\{[^{}]*(?:\{[^{}]*\}[^{}]*)*\}/`
after the opening `\{[^{}]*`: the starred group followed by the final
`\}`.  The inner `[^{}]*` runs are forced maximal (the following pattern
characters are braces), and when an iteration meets a second nesting
level every backtracking alternative fails, so the attempt fails. -/
def lrTail : Nat → Str → Option Nat
  | 0, _ => none
  | _ + 1, [] => none
  | f + 1, c :: r =>
      if c = '}' then some 1
      else if c = '{' then
        let a := (r.takeWhile nonBrace).length
        match r.drop a with
        | '}' :: r2 =>
            let b := (r2.takeWhile nonBrace).length
            (lrTail f (r2.drop b)).map (fun n => 1 + a + 1 + b + n)
        | _ => none
      else none

/-- Leftmost match of the last-resort regex
`/\{[^{}]*(?:\{[^{}]*\}[^{}]*)*\}/` (claude-client.ts line 67). -/
def lastResortScan : Str → Option Str
  | [] => none
  | c :: r =>
      match
        (if c = '{' then
          let a := (r.takeWhile nonBrace).length
          (lrTail (r.length + 1) (r.drop a)).map (fun n => (c :: r).take (1 + a + n))
        else none) with
      | some m => some m
      | none => lastResortScan r

/-- The single-quote character (written via its code point). -/
def squote : Char := Char.ofNat 39

/-- Global replace of `/,(\s*[}\]])/` by `'$1'` (claude-client.ts
line 87): a comma directly before (whitespace and) a closing brace or
bracket is dropped, the captured whitespace and bracket are kept, and
scanning continues after the replacement. -/
def stripTCF : Nat → Str → Str
  | 0, t => t
  | _ + 1, [] => []
  | f + 1, c :: r =>
      if c = ',' then
        let w := (r.takeWhile jsWsChar).length
        match r.drop w with
        | b :: r2 =>
            if b = '}' || b = ']' then r.take w ++ b :: stripTCF f r2
            else c :: stripTCF f r
        | [] => c :: stripTCF f r
      else c :: stripTCF f r

/-- Transform (a) of `repairJson`: strip trailing commas before closing
braces/brackets. -/
def stripTrailingCommas (t : Str) : Str := stripTCF (t.length + 1) t

/-- Transform (b) of `repairJson` (line 90): global replace of single
quotes by double quotes. -/
def quoteRepl (t : Str) : Str := t.map (fun c => if c = squote then '"' else c)

/-- Global replace of `/(\w+)(\s*:\s*)/` by `"$1"$2` (claude-client.ts
line 93): a maximal word run followed by (whitespace,) a colon (and
whitespace) is wrapped in double quotes.  When the run is not followed
by a colon no start position inside it can match either, so the whole
run is emitted unchanged. -/
def keyQuoteF : Nat → Str → Str
  | 0, t => t
  | _ + 1, [] => []
  | f + 1, c :: r =>
      if wordChar c then
        let w := (c :: r).takeWhile wordChar
        let rest := (c :: r).drop w.length
        let s1 := rest.takeWhile jsWsChar
        match rest.drop s1.length with
        | ':' :: r2 =>
            let s2 := r2.takeWhile jsWsChar
            '"' :: w ++ '"' :: s1 ++ ':' :: s2 ++ keyQuoteF f (r2.drop s2.length)
        | _ => w ++ keyQuoteF f rest
      else c :: keyQuoteF f r

/-- Transform (c) of `repairJson`: quote bare keys. -/
def keyQuote (t : Str) : Str := keyQuoteF (t.length + 1) t

/-- Global replace of `/""([^"]+)""/` by `"$1"` (claude-client.ts
line 96): a doubled quote, a nonempty quote-free run, and a doubled
quote collapse to a single-quoted run; on failure the scan advances one
character. -/
def collapseDqF : Nat → Str → Str
  | 0, t => t
  | _ + 1, [] => []
  | f + 1, c :: r =>
      match c :: r with
      | '"' :: '"' :: r1 =>
          let w := r1.takeWhile (fun c => !(c = '"'))
          match r1.drop w.length with
          | '"' :: '"' :: r2 =>
              if w.isEmpty then '"' :: collapseDqF f ('"' :: r1)
              else '"' :: w ++ '"' :: collapseDqF f r2
          | _ => '"' :: collapseDqF f ('"' :: r1)
      | _ => c :: collapseDqF f r

/-- Transform (d) of `repairJson`: collapse doubled quotes introduced by
transform (c) on already-quoted keys. -/
def collapseDq (t : Str) : Str := collapseDqF (t.length + 1) t

/-- Global replace of `/,\s*}/` by `'}'` — or of `/,\s*]/` by `']'` when
`close` is `']'` (claude-client.ts lines 99-100).  Unlike transform (a)
the matched whitespace is dropped with the comma. -/
def stripCommaCloseF (close : Char) : Nat → Str → Str
  | 0, t => t
  | _ + 1, [] => []
  | f + 1, c :: r =>
      if c = ',' then
        let w := (r.takeWhile jsWsChar).length
        match r.drop w with
        | b :: r2 =>
            if b = close then b :: stripCommaCloseF close f r2
            else c :: stripCommaCloseF close f r
        | [] => c :: stripCommaCloseF close f r
      else c :: stripCommaCloseF close f r

/-- Transforms (e) of `repairJson`: remove residual `,\s*}` / `,\s*]`. -/
def stripCommaClose (close : Char) (t : Str) : Str :=
  stripCommaCloseF close (t.length + 1) t

/-- Brace-depth scan of `repairJson` (claude-client.ts lines 103-115):
starting at a `{`, counts `{` up and `}` down and reports the length of
the prefix at which the count returns to zero. -/
def scanZeroGo : Str → Int → Nat → Option Nat
  | [], _, _ => none
  | c :: r, d, pos =>
      if c = '{' then scanZeroGo r (d + 1) (pos + 1)
      else if c = '}' then
        if d - 1 = 0 then some (pos + 1) else scanZeroGo r (d - 1) (pos + 1)
      else scanZeroGo r d (pos + 1)

/-- `ClaudeClient.repairJson` (claude-client.ts lines 84-121): the five
textual transforms in order, then extraction of the first complete
brace-balanced object; `none` models the `return null` when no `{`
exists (the catch-all of the source is unreachable for these pure
operations). -/
def repairJson (s : Str) : Option Str :=
  let r2 := quoteRepl (stripTrailingCommas s)
  let r4 := collapseDq (keyQuote r2)
  let r6 := stripCommaClose ']' (stripCommaClose '}' r4)
  match idxOfChar r6 '{' with
  | none => none
  | some i =>
      match scanZeroGo (r6.drop i) 0 0 with
      | some len => some ((r6.drop i).take len)
      | none => some r6

/-- Last-resort block of `extractJson` (claude-client.ts lines 66-81):
regex scan, repair attempt, and fallback to the raw match or the
original text. -/
def lastResortBlock (text : Str) : Str :=
  match lastResortScan text with
  | some m =>
      match repairJson m with
      | some rep => if (parseJson rep).isSome then rep else m
      | none => m
  | none => text

/-- Inner fallback of the `if (jsonMatch)` block (claude-client.ts
lines 51-62): lazy object match on the extracted text, repair, and
reparse; on failure control falls through to the last-resort block. -/
def extractStage3 (extracted text : Str) : Str :=
  match objectMatchLazy extracted with
  | some om =>
      match repairJson om with
      | some rep2 =>
          if (parseJson rep2).isSome then rep2 else lastResortBlock text
      | none => lastResortBlock text
  | none => lastResortBlock text

/-- `ClaudeClient.extractJson` (claude-client.ts lines 20-82): the three
regex strategies tried in order; on a match, trim, parse, repair and
reparse; otherwise (or when all inner attempts fail) the last-resort
regex; otherwise the original text. -/
def extractJson (text : Str) : Str :=
  let jm :=
    match matchR1 text with
    | some r => some r
    | none =>
        match matchR2 text with
        | some r => some r
        | none => matchR3 text
  match jm with
  | some (m0, g1) =>
      let extracted := trimS (if g1.isEmpty then m0 else g1)
      match parseJson extracted with
      | some _ => extracted
      | none =>
          match repairJson extracted with
          | some rep =>
              if (parseJson rep).isSome then rep
              else extractStage3 extracted text
          | none => extractStage3 extracted text
  | none => lastResortBlock text

/-- The four required top-level fields (claude-client.ts line 162). -/
def requiredFields : List Str :=
  ["projectAnalysis".data, "recommendedAgents".data,
   "recommendedCommands".data, "claudeRules".data]

/-- An array of strings as a JSON value. -/
def jarrS (ss : List String) : Json :=
  .jarr (ss.foldr (fun s t => .cons (.jstr s.data) t) .nil)

/-- A JSON object from a key/value list. -/
def jobjL (fs : List (String × Json)) : Json :=
  .jobj (fs.foldr (fun kv t => .fcons kv.1.data kv.2 t) .fnil)

/-- The minimal default `claudeRules` injected for a missing or falsy
`claudeRules` field (claude-client.ts lines 174-179). -/
def defaultClaudeRules : Json :=
  jobjL
    [("codingStandards", jarrS ["Follow existing code patterns"]),
     ("architectureGuidelines", jarrS ["Keep solutions simple"]),
     ("testingRequirements", jarrS ["Write real tests, not just mocks"]),
     ("simplicityGuardrails", jarrS ["Implement only what is required"])]

/-- The required-structure check and default injection shared by
`analyzeCodebase` and `generateFromIdea` (claude-client.ts
lines 162-185): `some` is the string returned from inside the `try`
block, `none` models a `TypeError` thrown there (property access on
`null`, or strict-mode property assignment on a primitive), which the
`catch` block then handles.  On an array, property assignments succeed
but `JSON.stringify` ignores the named properties. -/
def validateParsedFields (parsed : Json) (extracted : Str) : Option Str :=
  match parsed with
  | .jobj fs =>
      let missing := requiredFields.filter (fun f => !hasOwnF fs f)
      if missing.isEmpty then some extracted
      else
        let fs1 :=
          if jsTruthyO (lookupF fs "recommendedAgents".data) then fs
          else setF fs "recommendedAgents".data (.jarr .nil)
        let fs2 :=
          if jsTruthyO (lookupF fs1 "recommendedCommands".data) then fs1
          else setF fs1 "recommendedCommands".data (.jarr .nil)
        let fs3 :=
          if jsTruthyO (lookupF fs2 "recommendedHooks".data) then fs2
          else setF fs2 "recommendedHooks".data (.jobj .fnil)
        let fs4 :=
          if jsTruthyO (lookupF fs3 "claudeRules".data) then fs3
          else setF fs3 "claudeRules".data defaultClaudeRules
        some (stringifyV (.jobj fs4))
  | .jarr xs => some (stringifyV (.jarr xs))
  | _ => none

/-- `ClaudeClient.createIntelligentFallback` (claude-client.ts
lines 202-305): a configuration built purely by keyword scanning of the
lower-cased response text.  The source's catch-all returns `null` only
on an exception, which the pure operations here never raise, so the
result is always `some`. -/
def createIntelligentFallback (responseText : Str) : Option Json :=
  let text := lowerS responseText
  let inc : String → Bool := fun s => containsS text s.data
  let detectedTechnologies : List String :=
    (if inc "python" then ["Python"] else []) ++
    (if inc "typescript" || inc "react" then ["TypeScript"] else []) ++
    (if inc "react" then ["React"] else []) ++
    (if inc "fastapi" then ["FastAPI"] else []) ++
    (if inc "django" then ["Django"] else []) ++
    (if inc "azure" then ["Azure"] else []) ++
    (if inc "docker" then ["Docker"] else []) ++
    (if inc "bicep" then ["Azure Bicep"] else []) ++
    (if inc "n8n" then ["N8N"] else [])
  let mainLanguages : List String :=
    (if inc "python" then ["Python"] else []) ++
    (if inc "typescript" || inc "react" then ["TypeScript"] else [])
  let projectType : String :=
    if inc "fullstack" || (inc "frontend" && inc "backend") then "fullstack-web-app"
    else if inc "enterprise" || inc "microservice" then "enterprise-system"
    else if inc "api" then "api-service"
    else if inc "cli" then "cli-tool"
    else "unknown"
  let complexity : String :=
    if inc "complex" || inc "enterprise" || inc "microservice" then "high"
    else if inc "simple" || inc "basic" then "low"
    else "medium"
  let buildTools : List String :=
    (if inc "npm" then ["npm"] else []) ++
    (if inc "docker" then ["docker"] else []) ++
    (if inc "azure pipeline" then ["Azure Pipelines"] else []) ++
    (if inc "pytest" then ["pytest"] else [])
  let mockInadequate := inc "mock-only" || inc "inadequate"
  let testingSetup : String :=
    if mockInadequate then "mock-only-inadequate" else "unknown"
  let testingRequirements : List String :=
    if mockInadequate then
      ["🚨 CRITICAL: Mock-only tests are INADEQUATE and HIGH RISK",
       "MANDATORY: Replace mock-only tests with REAL integration tests",
       "All external API calls must have corresponding REAL integration tests",
       "Performance claims require actual measurements, not assumptions"]
    else ["Write real integration tests", "Avoid mock-only testing"]
  let pythonAgent : Json :=
    jobjL
      [("name", .jstr "Python Backend Specialist".data),
       ("description", .jstr ("Expert in Python backend development with " ++
          "FastAPI/Django patterns and real testing practices.").data),
       ("tools", jarrS ["Read", "Write", "Edit", "Bash", "Grep"]),
       ("systemPrompt", .jstr ("You are a Python backend specialist. Focus on " ++
          "clean, testable code with real integration tests.").data)]
  let tsAgent : Json :=
    jobjL
      [("name", .jstr "TypeScript Frontend Specialist".data),
       ("description", .jstr ("Expert in TypeScript and React development with " ++
          "strict typing and component best practices.").data),
       ("tools", jarrS ["Read", "Write", "Edit", "Bash", "Grep"]),
       ("systemPrompt", .jstr ("You are a TypeScript/React specialist. Enforce " ++
          "strict typing and component-based architecture.").data)]
  let recommendedAgents : List Json :=
    (if detectedTechnologies.contains "Python" then [pythonAgent] else []) ++
    (if detectedTechnologies.contains "TypeScript" then [tsAgent] else [])
  some (jobjL
    [("projectAnalysis", jobjL
        [("detectedTechnologies", jarrS detectedTechnologies),
         ("projectType", .jstr projectType.data),
         ("complexity", .jstr complexity.data),
         ("buildTools", jarrS buildTools),
         ("testingSetup", .jstr testingSetup.data),
         ("mainLanguages", jarrS mainLanguages)]),
     ("recommendedAgents",
        .jarr (recommendedAgents.foldr (fun j t => .cons j t) .nil)),
     ("recommendedCommands", .jarr .nil),
     ("recommendedHooks", .jobj .fnil),
     ("claudeRules", jobjL
        [("codingStandards", jarrS
            ["Follow existing code patterns", "Implement proper error handling"]),
         ("architectureGuidelines", jarrS
            ["Keep solutions simple", "Use established patterns"]),
         ("testingRequirements", jarrS testingRequirements),
         ("simplicityGuardrails", jarrS
            ["Implement only what is required",
             "Prefer composition over complexity"])])])

/-- The pipeline's error outcome: the
`Failed to extract valid JSON from Claude response` exception. -/
inductive PipeErr where
  | parseFailure : PipeErr
  deriving DecidableEq

/-- Catch block of `analyzeCodebase` (claude-client.ts lines 186-199):
intelligent fallback when available, otherwise the thrown error. -/
def fallbackOr (text : Str) : Except PipeErr Str :=
  match createIntelligentFallback text with
  | some cfg => .ok (stringifyV cfg)
  | none => .error .parseFailure

/-- Post-extraction validation of `ClaudeClient.analyzeCodebase`
(claude-client.ts lines 155-199) as a pure function of the raw
completion text: extraction, parse, required-structure check with
default injection, and on parse failure the intelligent fallback. -/
def analyzeValidate (text : Str) : Except PipeErr Str :=
  let extracted := extractJson text
  match parseJson extracted with
  | some parsed =>
      match validateParsedFields parsed extracted with
      | some r => .ok r
      | none => fallbackOr text
  | none => fallbackOr text

/-- Post-extraction validation of `ClaudeClient.generateFromIdea`
(claude-client.ts lines 321-358): identical to `analyzeValidate` except
that a parse failure throws immediately — no fallback path exists. -/
def genIdeaValidate (text : Str) : Except PipeErr Str :=
  let extracted := extractJson text
  match parseJson extracted with
  | some parsed =>
      match validateParsedFields parsed extracted with
      | some r => .ok r
      | none => .error .parseFailure
  | none => .error .parseFailure

/-- Length of a JSON array. -/
def jlen : JList → Nat
  | .nil => 0
  | .cons _ t => jlen t + 1

/-- Number of fields of a JSON object. -/
def flen : JFields → Nat
  | .fnil => 0
  | .fcons _ _ t => flen t + 1

/-- Errors of the strict validation policy. -/
inductive QualityErr where
  | parseFailure : QualityErr
  | quality : List Str → QualityErr
  deriving DecidableEq

/-- Modelled from the spec: the validation-failure strings of the strict
policy's `QualityError` (the repository holds only the tests of its
strict client variant, not the variant itself).  Per spec §4.2/§7 the
error enumerates exactly which required fields are missing and which
arrays hold fewer than the minimum acceptable count (fewer than 2
agents, fewer than 2 top-level rule categories), as human-readable
strings naming the offending field. -/
def strictQualityFailures (fs : JFields) : List Str :=
  (requiredFields.filter (fun f => !hasOwnF fs f)).map
    (fun f => "missing ".data ++ f) ++
  (match lookupF fs "recommendedAgents".data with
   | some (.jarr xs) =>
       if jlen xs < 2 then ["fewer than 2 recommendedAgents".data] else []
   | _ => []) ++
  (match lookupF fs "claudeRules".data with
   | some (.jobj rs) =>
       if flen rs < 2 then ["fewer than 2 claudeRules categories".data] else []
   | _ => [])

/-- Modelled from the spec: the strict validation policy (§4.2 Step 3,
strict branch; §7 QualityError/ParseFailure).  The repository's strict
client variant exists only through `claude-client.test.ts`
(`should reject response with missing fields`); its extraction step and
parse step are those of the source, and an unparseable candidate is a
ParseFailure while a parseable candidate failing the minimum schema
requirements is a QualityError carrying the failure strings. -/
def strictValidate (text : Str) : Except QualityErr Str :=
  let extracted := extractJson text
  match parseJson extracted with
  | some (.jobj fs) =>
      if (strictQualityFailures fs).isEmpty then .ok extracted
      else .error (.quality (strictQualityFailures fs))
  | some _ => .error (.quality (strictQualityFailures .fnil))
  | none => .error .parseFailure

/-- Decidable equality of `Except` results, for concrete evaluations. -/
instance {ε α : Type} [DecidableEq ε] [DecidableEq α] :
    DecidableEq (Except ε α) := fun a b =>
  match a, b with
  | .ok x, .ok y =>
      if h : x = y then .isTrue (by rw [h])
      else .isFalse (fun hh => h (Except.ok.inj hh))
  | .error x, .error y =>
      if h : x = y then .isTrue (by rw [h])
      else .isFalse (fun hh => h (Except.error.inj hh))
  | .ok _, .error _ => .isFalse (fun hh => Except.noConfusion hh)
  | .error _, .ok _ => .isFalse (fun hh => Except.noConfusion hh)

/-- The text that follows the fenced body: the final newline, the
closing fence marker, and the rest of the completion. -/
def closeTail (suf : Str) : Str := '\n' :: (fenceTicks ++ suf)

/-- The complete labeled fenced block around `body`, with the trailing
`suf` outside of it. -/
def fenceWrap (body suf : Str) : Str :=
  fenceJsonLit ++ ('\n' :: (body ++ closeTail suf))

/-- The whole-match text of the labeled fence around `body`. -/
def fenceMatch (body : Str) : Str :=
  fenceJsonLit ++ ('\n' :: (body ++ ('\n' :: fenceTicks)))

/-- The comma-corrected form of a candidate: exactly the source's
comma-stripping transforms (a) and (e), with the other transforms
assumed inert. -/
def commaCorrect (s : Str) : Str :=
  stripCommaClose ']' (stripCommaClose '}' (stripTrailingCommas s))

/-- The spec's literal fenced completion for the extraction test
(`Here you go:` fence, minimal configuration object, `Enjoy!`). -/
def c9Input : Str :=
  ("Here you go:\n\x60\x60\x60json\n\x7b\"projectAnalysis\":\x7b\x7d,\"recommendedAgents\":[],\"recommendedCommands\":[],\"claudeRules\":\x7b\x7d\x7d\n\x60\x60\x60\nEnjoy!").data

/-- The object text inside the fences of `c9Input`. -/
def c9Obj : Str :=
  ("\x7b\"projectAnalysis\":\x7b\x7d,\"recommendedAgents\":[],\"recommendedCommands\":[],\"claudeRules\":\x7b\x7d\x7d").data

/-- A configuration object that is valid JSON except for one trailing
comma, with a string value containing a word followed by a colon. -/
def c6Input : Str :=
  ("\x7b\"projectAnalysis\":\"x: y\",\"recommendedAgents\":[],\"recommendedCommands\":[],\"claudeRules\":\x7b\x7d,\x7d").data

/-- The comma-corrected form of `c6Input`, spelled out. -/
def c6Corrected : Str :=
  ("\x7b\"projectAnalysis\":\"x: y\",\"recommendedAgents\":[],\"recommendedCommands\":[],\"claudeRules\":\x7b\x7d\x7d").data

section MatcherLemmas

/-- `startsWithS` fails when the head characters differ. -/
theorem startsWithS_cons_ne {c d : Char} (t ps : Str) (h : c ≠ d) :
    startsWithS (c :: t) (d :: ps) = false := by
  simp [startsWithS, h]

/-- A fence-opening attempt fails when the text does not start with a
backtick. -/
theorem r1At_eq_none {c : Char} (t : Str) (h : c ≠ btick) :
    r1At (c :: t) = none := by
  have hs : startsWithS (c :: t) fenceJsonLit = false := by
    simp [fenceJsonLit, fenceTicks, startsWithS, h]
  simp [r1At, hs]

/-- A generic-fence attempt fails when the text does not start with a
backtick. -/
theorem r2At_eq_none {c : Char} (t : Str) (h : c ≠ btick) :
    r2At (c :: t) = none := by
  have hs : startsWithS (c :: t) fenceTicks = false := by
    simp [fenceTicks, startsWithS, h]
  simp [r2At, hs]

/-- The labeled-fence regex cannot match a text without backticks. -/
theorem matchR1_eq_none (t : Str) (h : btick ∉ t) : matchR1 t = none := by
  induction t with
  | nil => rfl
  | cons c r ih =>
      have hc : c ≠ btick := fun hc => h (hc ▸ List.mem_cons_self c r)
      have hr : btick ∉ r := fun hr => h (List.mem_cons_of_mem c hr)
      simp [matchR1, r1At_eq_none r hc, ih hr]

/-- The unlabeled-fence regex cannot match a text without backticks. -/
theorem matchR2_eq_none (t : Str) (h : btick ∉ t) : matchR2 t = none := by
  induction t with
  | nil => rfl
  | cons c r ih =>
      have hc : c ≠ btick := fun hc => h (hc ▸ List.mem_cons_self c r)
      have hr : btick ∉ r := fun hr => h (List.mem_cons_of_mem c hr)
      simp [matchR2, r2At_eq_none r hc, ih hr]

/-- `idxOfChar` skips over a prefix that does not contain the sought
character. -/
theorem idxOfChar_append_not_mem (pre rest : Str) (c : Char) (h : c ∉ pre) :
    idxOfChar (pre ++ rest) c = (idxOfChar rest c).map (· + pre.length) := by
  induction pre with
  | nil => simp [Option.map_id']
  | cons a r ih =>
      have ha : a ≠ c := fun ha => h (ha ▸ List.mem_cons_self a r)
      have hr : c ∉ r := fun hr => h (List.mem_cons_of_mem a hr)
      simp [idxOfChar, ha, ih hr, Option.map_map]

/-- `idxOfChar` finds the head character at position zero. -/
theorem idxOfChar_cons_self (c : Char) (r : Str) :
    idxOfChar (c :: r) c = some 0 := by simp [idxOfChar]

/-- A list whose first and last characters differ has length ≥ 2. -/
theorem two_le_length_of_head_last {t : Str} {a b : Char}
    (hh : t.head? = some a) (hl : t.getLast? = some b) (hne : a ≠ b) :
    2 ≤ t.length := by
  match t, hh with
  | [c], hh =>
      simp [List.head?] at hh
      simp [List.getLast?] at hl
      exact absurd (hh.symm.trans hl) hne
  | c :: d :: r, _ => simp [List.length]

/-- Snoc decomposition from `getLast?`. -/
theorem exists_snoc_of_getLast {t : Str} {b : Char} (hl : t.getLast? = some b) :
    ∃ t0, t = t0 ++ [b] := by
  induction t with
  | nil => simp at hl
  | cons c r ih =>
      cases r with
      | nil =>
          simp [List.getLast?] at hl
          exact ⟨[], by simp [hl]⟩
      | cons d r2 =>
          rw [List.getLast?_cons_cons] at hl
          obtain ⟨t0, ht0⟩ := ih hl
          exact ⟨c :: t0, by simp [ht0]⟩

/-- `trimS` is the identity on a string whose first and last characters
are not whitespace. -/
theorem trimS_eq_self {t : Str} {a b : Char}
    (hh : t.head? = some a) (ha : jsWsChar a = false)
    (hl : t.getLast? = some b) (hb : jsWsChar b = false) :
    trimS t = t := by
  obtain ⟨t0, rfl⟩ := exists_snoc_of_getLast hl
  have h1 : (t0 ++ [b]).dropWhile jsWsChar = t0 ++ [b] := by
    cases t0 with
    | nil => simp_all [List.dropWhile]
    | cons c r =>
        simp [List.head?] at hh
        subst hh
        simp [List.dropWhile, ha]
  have h2 : (b :: t0.reverse).dropWhile jsWsChar = b :: t0.reverse := by
    simp [List.dropWhile, hb]
  simp [trimS, h1, List.reverse_append, h2]

end MatcherLemmas

section FenceLemmas

/-- Any list is a prefix of itself extended. -/
theorem startsWithS_append_self (p r : Str) : startsWithS (p ++ r) p = true := by
  induction p with
  | nil => simp [startsWithS]
  | cons c t ih => simp [startsWithS, ih]

/-- One step of `findClose` when the closing pattern fails here. -/
theorem findClose_cons_none {c : Char} {r : Str}
    (h : matchCloseFence (c :: r) = none) :
    findClose (c :: r) = (findClose r).map (fun p => (p.1 + 1, p.2)) := by
  simp only [findClose, h]

/-- One step of `findClose` when the closing pattern matches here. -/
theorem findClose_cons_some {c : Char} {r : Str} {n : Nat}
    (h : matchCloseFence (c :: r) = some n) :
    findClose (c :: r) = some (0, n) := by
  simp only [findClose, h]

/-- `matchCloseFence` on a non-newline head. -/
theorem matchCloseFence_not_nl {c : Char} {r : Str} (h : c ≠ '\n') :
    matchCloseFence (c :: r) = none := by
  simp [matchCloseFence, h]

/-- `matchCloseFence` after a newline, as a conditional. -/
theorem matchCloseFence_nl (r : Str) :
    matchCloseFence ('\n' :: r) =
      (if startsWithS (r.drop ((r.takeWhile jsWsChar).length)) fenceTicks
       then some (1 + (r.takeWhile jsWsChar).length + 3) else none) := by
  by_cases h : startsWithS (r.drop ((r.takeWhile jsWsChar).length)) fenceTicks
  · simp [matchCloseFence, h]
  · simp [matchCloseFence, h]

/-- Dropping the maximal whitespace run of `l ++ r` stops at a non-ws
character of `l`, provided `l` has one. -/
theorem drop_takeWhileWs_append (l r : Str)
    (hex : ∃ x ∈ l, jsWsChar x = false) :
    ∃ d rest, (l ++ r).drop ((l ++ r).takeWhile jsWsChar).length = d :: rest
      ∧ jsWsChar d = false ∧ d ∈ l := by
  induction l with
  | nil => simp at hex
  | cons x l' ih =>
      by_cases hx : jsWsChar x = true
      · obtain ⟨w, hw, hwf⟩ := hex
        have hwl' : w ∈ l' := by
          rcases List.mem_cons.mp hw with h | h
          · rw [h] at hwf; rw [hwf] at hx; exact absurd hx (by simp)
          · exact h
        obtain ⟨d, rest, hd, hdf, hdm⟩ := ih ⟨w, hwl', hwf⟩
        refine ⟨d, rest, ?_, hdf, List.mem_cons_of_mem x hdm⟩
        simpa [List.takeWhile, hx] using hd
      · refine ⟨x, l' ++ r, ?_, by simpa using hx, List.mem_cons_self x l'⟩
        simp [List.takeWhile, hx]

/-- The closing fence pattern does not match inside a backtick-free body
segment that still has a `}` ahead of it. -/
theorem matchCloseFence_inside {x : Char} (b suf : Str)
    (hbt : btick ∉ b) (hmem : '}' ∈ b) :
    matchCloseFence (x :: (b ++ closeTail suf)) = none := by
  by_cases hx : x = '\n'
  · subst hx
    obtain ⟨d, rest, hd, hdf, hdm⟩ :=
      drop_takeWhileWs_append b (closeTail suf) ⟨'}', hmem, by decide⟩
    have hdb : d ≠ btick := fun hc => hbt (hc ▸ hdm)
    have hsw : startsWithS (d :: rest) fenceTicks = false := by
      simp [fenceTicks, startsWithS, hdb]
    rw [matchCloseFence_nl, hd, hsw]
    simp
  · exact matchCloseFence_not_nl hx

/-- The closing pattern of the fence regexes succeeds exactly at the end
of a body whose last character is `}` and which contains no backtick. -/
theorem findClose_fence (b0 suf : Str) (hbt : btick ∉ b0) :
    findClose ((b0 ++ ['}']) ++ closeTail suf)
      = some ((b0 ++ ['}']).length, 4) := by
  induction b0 with
  | nil =>
      have h1 : matchCloseFence ('}' :: closeTail suf) = none :=
        matchCloseFence_not_nl (by decide)
      have htw : (fenceTicks ++ suf).takeWhile jsWsChar = [] := by
        simp [fenceTicks, List.takeWhile, btick, jsWsChar]
      have h2 : matchCloseFence ('\n' :: (fenceTicks ++ suf)) = some 4 := by
        rw [matchCloseFence_nl, htw]
        simp [startsWithS_append_self]
      have hre : ([] ++ ['}']) ++ closeTail suf = '}' :: closeTail suf := by simp
      rw [hre, findClose_cons_none h1]
      rw [show closeTail suf = '\n' :: (fenceTicks ++ suf) from rfl]
      rw [findClose_cons_some h2]
      simp
  | cons x b0' ih =>
      have hbt' : btick ∉ b0' := fun hc => hbt (List.mem_cons_of_mem x hc)
      have hmc : matchCloseFence (x :: ((b0' ++ ['}']) ++ closeTail suf)) = none := by
        have := matchCloseFence_inside (x := x) (b0' ++ ['}']) suf
          (by
            intro hc
            rcases List.mem_append.mp hc with h | h
            · exact hbt' h
            · simp [btick] at h)
          (by simp)
        simpa [List.append_assoc] using this
      have hstep : ((x :: b0') ++ ['}']) ++ closeTail suf
          = x :: ((b0' ++ ['}']) ++ closeTail suf) := by simp
      rw [hstep, findClose_cons_none hmc, ih hbt']
      simp

end FenceLemmas

section ExtractLemmas

/-- Dropping the length of a prefix removes exactly that prefix. -/
theorem dropS_append (l r : Str) : (l ++ r).drop l.length = r := by
  induction l with
  | nil => simp
  | cons c t ih => simp [ih]

/-- Taking the length of a prefix yields exactly that prefix. -/
theorem takeS_append (l r : Str) : (l ++ r).take l.length = l := by
  induction l with
  | nil => simp
  | cons c t ih => simp [ih]

/-- After the opening marker the whitespace run holds exactly the one
newline when the body starts with `{`. -/
theorem nlPoss_fence (r : Str) : nlPossInWsRun ('\n' :: ('{' :: r)) = [0] := by
  have h1 : jsWsChar '\n' = true := by decide
  have h2 : jsWsChar '{' = false := by decide
  simp [nlPossInWsRun, h1, h2]

/-- A labeled-fence attempt at the start of a well-formed fenced block
captures exactly the body. -/
theorem r1At_fence (body suf : Str) (hbt : btick ∉ body)
    (hh : body.head? = some '{') (hl : body.getLast? = some '}') :
    r1At (fenceWrap body suf) = some (fenceMatch body, body) := by
  obtain ⟨b0, hb0⟩ := exists_snoc_of_getLast hl
  obtain ⟨tb, htb⟩ : ∃ tb, body = '{' :: tb := by
    cases body with
    | nil => simp at hh
    | cons c r => simp [List.head?] at hh; exact ⟨r, by rw [hh]⟩
  have hsw : startsWithS (fenceWrap body suf) fenceJsonLit = true :=
    startsWithS_append_self fenceJsonLit ('\n' :: (body ++ closeTail suf))
  have hdrop : (fenceWrap body suf).drop 7 = '\n' :: (body ++ closeTail suf) := by
    have h7 : fenceJsonLit.length = 7 := by decide
    rw [fenceWrap, ← h7]
    exact dropS_append fenceJsonLit ('\n' :: (body ++ closeTail suf))
  have hnl : nlPossInWsRun ('\n' :: (body ++ closeTail suf)) = [0] := by
    rw [htb, List.cons_append]
    exact nlPoss_fence (tb ++ closeTail suf)
  have hbt0 : btick ∉ b0 := by
    intro hc
    exact hbt (hb0 ▸ List.mem_append.mpr (Or.inl hc))
  have hfc : findClose (body ++ closeTail suf) = some (body.length, 4) := by
    rw [hb0]
    exact findClose_fence b0 suf hbt0
  have hdrop1 : ('\n' :: (body ++ closeTail suf)).drop (0 + 1)
      = body ++ closeTail suf := by simp
  have htake : (body ++ closeTail suf).take body.length = body :=
    takeS_append body (closeTail suf)
  have htakeM : (fenceWrap body suf).take (7 + (0 + 1) + body.length + 4)
      = fenceMatch body := by
    have hlen : (fenceMatch body).length = 7 + (0 + 1) + body.length + 4 := by
      simp [fenceMatch, fenceJsonLit, fenceTicks]
      omega
    have hsplit : fenceWrap body suf = fenceMatch body ++ suf := by
      simp [fenceWrap, fenceMatch, closeTail]
    rw [hsplit, ← hlen, takeS_append]
  simp only [r1At, hsw, if_pos, hdrop, hnl, List.reverse_singleton]
  simp [firstSome, hfc, hdrop1, htake, htakeM]

/-- Leftmost matching of the labeled-fence regex over a backtick-free
prefix finds the fenced block. -/
theorem matchR1_fence (pre body suf : Str) (hpre : btick ∉ pre)
    (hbt : btick ∉ body)
    (hh : body.head? = some '{') (hl : body.getLast? = some '}') :
    matchR1 (pre ++ fenceWrap body suf) = some (fenceMatch body, body) := by
  induction pre with
  | nil =>
      have hw : fenceWrap body suf
          = btick :: (btick :: btick :: 'j' :: 's' :: 'o' :: 'n' ::
              ('\n' :: (body ++ closeTail suf))) := by
        simp [fenceWrap, fenceJsonLit, fenceTicks]
      rw [List.nil_append, hw, matchR1, ← hw, r1At_fence body suf hbt hh hl]
  | cons c r ih =>
      have hc : c ≠ btick := fun hc => hpre (hc ▸ List.mem_cons_self c r)
      have hr : btick ∉ r := fun hc => hpre (List.mem_cons_of_mem c hc)
      rw [List.cons_append, matchR1, r1At_eq_none _ hc, ih hr]

end ExtractLemmas

section ExtractPathLemmas

/-- `extractJson` when the labeled-fence strategy matches, the capture
is nonempty, and the trimmed capture parses: the trimmed capture is
returned. -/
theorem extractJson_of_matchR1 {text m0 g1 : Str} {v : Json}
    (hm : matchR1 text = some (m0, g1)) (hne : g1 ≠ [])
    (hp : parseJson (trimS g1) = some v) :
    extractJson text = trimS g1 := by
  have hext : (if g1.isEmpty = true then m0 else g1) = g1 := by
    cases g1 with
    | nil => exact absurd rfl hne
    | cons c r => rfl
  simp only [extractJson, hm, hext, hp]

/-- `extractJson` when the fence strategies fail, the brace-span
strategy matches, and the trimmed capture parses. -/
theorem extractJson_of_matchR3 {text m0 g1 : Str} {v : Json}
    (h1 : matchR1 text = none) (h2 : matchR2 text = none)
    (hm : matchR3 text = some (m0, g1)) (hne : g1 ≠ [])
    (hp : parseJson (trimS g1) = some v) :
    extractJson text = trimS g1 := by
  have hext : (if g1.isEmpty = true then m0 else g1) = g1 := by
    cases g1 with
    | nil => exact absurd rfl hne
    | cons c r => rfl
  simp only [extractJson, h1, h2, hm, hext, hp]

/-- `extractJson` when the fence strategies fail, the brace-span
strategy matches, the trimmed capture does not parse, but `repairJson`
produces a parseable string: the repaired string is returned. -/
theorem extractJson_of_matchR3_repair {text m0 g1 rep : Str} {v : Json}
    (h1 : matchR1 text = none) (h2 : matchR2 text = none)
    (hm : matchR3 text = some (m0, g1)) (hne : g1 ≠ [])
    (hp : parseJson (trimS g1) = none)
    (hr : repairJson (trimS g1) = some rep)
    (hpr : parseJson rep = some v) :
    extractJson text = rep := by
  have hext : (if g1.isEmpty = true then m0 else g1) = g1 := by
    cases g1 with
    | nil => exact absurd rfl hne
    | cons c r => rfl
  simp only [extractJson, h1, h2, hm, hext, hp, hr, hpr, Option.isSome_some,
    if_pos]

/-- The brace-span regex on an object embedded in brace-free prose
captures exactly the object. -/
theorem matchR3_embedded (pre obj post : Str)
    (hpre : '{' ∉ pre) (hpost : '}' ∉ post)
    (hh : obj.head? = some '{') (hl : obj.getLast? = some '}') :
    matchR3 (pre ++ obj ++ post) = some (obj, obj) := by
  obtain ⟨b0, hb0⟩ := exists_snoc_of_getLast hl
  obtain ⟨tb, htb⟩ : ∃ tb, obj = '{' :: tb := by
    cases obj with
    | nil => simp at hh
    | cons c r => simp [List.head?] at hh; exact ⟨r, by rw [hh]⟩
  have hlen2 : 2 ≤ obj.length := two_le_length_of_head_last hh hl (by decide)
  have hidx : idxOfChar (pre ++ obj ++ post) '{' = some pre.length := by
    rw [List.append_assoc, idxOfChar_append_not_mem pre (obj ++ post) '{' hpre]
    rw [htb, List.cons_append, idxOfChar_cons_self]
    simp
  have hrev : (pre ++ obj ++ post).reverse
      = post.reverse ++ ('}' :: (b0.reverse ++ pre.reverse)) := by
    rw [hb0]
    simp
  have hlast : lastIdxOfChar (pre ++ obj ++ post) '}'
      = some ((pre ++ obj ++ post).length - 1 - post.length) := by
    rw [lastIdxOfChar, hrev,
      idxOfChar_append_not_mem post.reverse _ '}'
        (fun hc => hpost (List.mem_reverse.mp hc)),
      idxOfChar_cons_self]
    simp
  have hlenT : (pre ++ obj ++ post).length
      = pre.length + obj.length + post.length := by
    simp [Nat.add_assoc]
  have hj : (pre ++ obj ++ post).length - 1 - post.length
      = pre.length + obj.length - 1 := by omega
  have hlt : pre.length < pre.length + obj.length - 1 := by omega
  have hdropT : (pre ++ obj ++ post).drop pre.length = obj ++ post := by
    rw [List.append_assoc]
    exact dropS_append pre (obj ++ post)
  have harith : pre.length + obj.length - 1 - pre.length + 1 = obj.length := by
    omega
  simp only [matchR3, hidx, hlast, hj, if_pos hlt, hdropT, harith,
    takeS_append]

end ExtractPathLemmas

section ClaimC3C4C5

/-- C3: for every string made of a backtick-free prefix, a single
well-formed JSON object (trimmed: starting `{`, ending `}`, no backtick)
wrapped in a fenced block labeled as JSON, and an arbitrary suffix,
`extractJson` returns exactly the inner object text of the fence, with
none of the surrounding prose or fence markers. -/
theorem C3_extract_labeled_fence (pre body suf : Str)
    (hpre : btick ∉ pre) (hbt : btick ∉ body)
    (hh : body.head? = some '{') (hl : body.getLast? = some '}')
    (hv : (parseJson body).isSome) :
    extractJson (pre ++ fenceWrap body suf) = body := by
  obtain ⟨v, hv'⟩ := Option.isSome_iff_exists.mp hv
  have htr : trimS body = body :=
    trimS_eq_self hh (by decide) hl (by decide)
  have hne : body ≠ [] := by
    intro hc; rw [hc] at hh; simp at hh
  have := extractJson_of_matchR1
    (matchR1_fence pre body suf hpre hbt hh hl) hne (htr ▸ hv')
  rwa [htr] at this

/-- Witness for C3 at a concrete fenced completion. -/
theorem C3_extract_labeled_fence_witness :
    extractJson (("Result: ").data ++
        fenceWrap ("\x7b\"a\":1\x7d").data (("\nthanks").data))
      = ("\x7b\"a\":1\x7d").data :=
  C3_extract_labeled_fence _ _ _ (by decide) (by decide) (by decide)
    (by decide) (by decide)

/-- C4: on a JSON object with nested objects embedded in prose (no
braces or backticks in the prose), extraction returns exactly the
complete outer object span, never a truncated inner one. -/
theorem C4_extract_nested_object (pre obj post : Str)
    (hpre : ∀ c ∈ pre, c ≠ btick ∧ c ≠ '{' ∧ c ≠ '}')
    (hpost : ∀ c ∈ post, c ≠ btick ∧ c ≠ '{' ∧ c ≠ '}')
    (hbt : btick ∉ obj)
    (hh : obj.head? = some '{') (hl : obj.getLast? = some '}')
    (hv : (parseJson obj).isSome) :
    extractJson (pre ++ obj ++ post) = obj := by
  obtain ⟨v, hv'⟩ := Option.isSome_iff_exists.mp hv
  have hbtall : btick ∉ pre ++ obj ++ post := by
    intro hc
    rcases List.mem_append.mp hc with hc | hc
    · rcases List.mem_append.mp hc with hc | hc
      · exact (hpre _ hc).1 rfl
      · exact hbt hc
    · exact (hpost _ hc).1 rfl
  have htr : trimS obj = obj :=
    trimS_eq_self hh (by decide) hl (by decide)
  have hne : obj ≠ [] := by
    intro hc; rw [hc] at hh; simp at hh
  have hm3 := matchR3_embedded pre obj post
    (fun hc => (hpre _ hc).2.1 rfl) (fun hc => (hpost _ hc).2.2 rfl) hh hl
  have := extractJson_of_matchR3 (matchR1_eq_none _ hbtall)
    (matchR2_eq_none _ hbtall) hm3 hne (htr ▸ hv')
  rwa [htr] at this

/-- Witness for C4 on a nested object in prose. -/
theorem C4_extract_nested_object_witness :
    extractJson (("The result is ").data ++
        ("\x7b\"a\":\x7b\"b\":\x7b\"c\":1\x7d\x7d\x7d").data ++
        (" - enjoy!").data)
      = ("\x7b\"a\":\x7b\"b\":\x7b\"c\":1\x7d\x7d\x7d").data :=
  C4_extract_nested_object _ _ _ (by decide) (by decide) (by decide)
    (by decide) (by decide) (by decide)

/-- C5: when no extraction strategy (labeled fence, unlabeled fence,
brace scan, last-resort regex) produces any match, `extractJson` returns
the original input unchanged (and, being a total function, throws
nothing). -/
theorem C5_extract_no_match (t : Str)
    (h1 : matchR1 t = none) (h2 : matchR2 t = none) (h3 : matchR3 t = none)
    (h4 : lastResortScan t = none) :
    extractJson t = t := by
  simp only [extractJson, h1, h2, h3, lastResortBlock, h4]

/-- Witness for C5 at the empty string. -/
theorem C5_extract_no_match_witness :
    extractJson [] = [] :=
  C5_extract_no_match [] (by decide) (by decide) (by decide) (by decide)

end ClaimC3C4C5

section NoNewline

/-- Hex digit characters are never a newline. -/
theorem hexDigit_ne_nl (n : Nat) : hexDigit n ≠ '\n' := by
  have h16 : n % 16 < 16 := Nat.mod_lt _ (by norm_num)
  unfold hexDigit
  dsimp only
  interval_cases h : (n % 16) <;> decide

/-- `hexDigits` never contains a newline. -/
theorem hexDigits_no_nl (k n : Nat) : '\n' ∉ hexDigits k n := by
  induction k generalizing n with
  | zero => simp [hexDigits]
  | succ k ih =>
      intro h
      rcases List.mem_append.mp h with h | h
      · exact ih _ h
      · simp at h; exact hexDigit_ne_nl n h.symm

/-- `natDigitsF` never contains a newline. -/
theorem natDigitsF_no_nl (f n : Nat) : '\n' ∉ natDigitsF f n := by
  induction f generalizing n with
  | zero => simp [natDigitsF]
  | succ f ih =>
      intro h
      by_cases hn : n < 10
      · simp [natDigitsF, hn] at h
        exact hexDigit_ne_nl n h.symm
      · simp [natDigitsF, hn] at h
        rcases h with h | h
        · exact ih _ h
        · exact hexDigit_ne_nl (n % 10) h.symm

/-- `intToStr` never contains a newline. -/
theorem intToStr_no_nl (n : Int) : '\n' ∉ intToStr n := by
  unfold intToStr
  split
  · intro h
    rcases List.mem_cons.mp h with h | h
    · exact absurd h (by decide)
    · exact natDigitsF_no_nl _ _ h
  · exact natDigitsF_no_nl _ _

/-- `escChar` never contains a newline (the raw newline is escaped). -/
theorem escChar_no_nl (c : Char) : '\n' ∉ escChar c := by
  unfold escChar
  repeat' split
  all_goals intro h
  all_goals first
    | (rcases List.mem_cons.mp h with h | h
       · exact absurd h (by decide)
       · rcases List.mem_cons.mp h with h | h
         · exact absurd h (by decide)
         · first
             | exact absurd h (by simp)
             | exact hexDigits_no_nl 4 _ h)
    | (rcases List.mem_cons.mp h with h | h
       · next hlt _ =>
           rename_i hq hb
           exact absurd (h ▸ (by decide : ('\n').toNat = 10)) (by omega)
       · exact absurd h (by simp))

/-- The escaped body of a string literal never contains a newline. -/
theorem stringifyStr_no_nl (s : Str) : '\n' ∉ stringifyStr s := by
  induction s with
  | nil => simp [stringifyStr]
  | cons c r ih =>
      intro h
      rcases List.mem_append.mp h with h | h
      · exact escChar_no_nl c h
      · exact ih h

end NoNewline

/-- The printed `"key":value` chunk contains no raw newline provided the
printed value does not. -/
theorem chunk_no_nl (k : Str) (v : Json) (hv : '\n' ∉ stringifyV v) :
    '\n' ∉ '"' :: (stringifyStr k ++ '"' :: ':' :: stringifyV v) := by
  intro h
  rcases List.mem_cons.mp h with h | h
  · exact absurd h (by decide)
  · rcases List.mem_append.mp h with h | h
    · exact stringifyStr_no_nl k h
    · rcases List.mem_cons.mp h with h | h
      · exact absurd h (by decide)
      · rcases List.mem_cons.mp h with h | h
        · exact absurd h (by decide)
        · exact hv h

mutual
/-- `JSON.stringify` output never contains a raw newline (newlines in
strings are escaped, and the compact form inserts none). -/
theorem stringifyV_no_nl : ∀ j : Json, '\n' ∉ stringifyV j
  | .null => by simp [stringifyV]
  | .jbool true => by simp [stringifyV]
  | .jbool false => by simp [stringifyV]
  | .jnum n => intToStr_no_nl n
  | .jstr s => by
      intro h
      simp only [stringifyV] at h
      rcases List.mem_cons.mp h with h | h
      · exact absurd h (by decide)
      · rcases List.mem_append.mp h with h | h
        · exact stringifyStr_no_nl s h
        · simp at h
  | .jarr .nil => by simp [stringifyV]
  | .jarr (.cons j t) => by
      intro h
      simp only [stringifyV] at h
      rcases List.mem_cons.mp h with h | h
      · exact absurd h (by decide)
      · rcases List.mem_append.mp h with h | h
        · rcases List.mem_append.mp h with h | h
          · exact stringifyV_no_nl j h
          · exact stringifyItems_no_nl t h
        · simp at h
  | .jobj .fnil => by simp [stringifyV]
  | .jobj (.fcons k v t) => by
      intro h
      simp only [stringifyV] at h
      rcases List.mem_cons.mp h with h | h
      · exact absurd h (by decide)
      · rcases List.mem_append.mp h with h | h
        · rcases List.mem_append.mp h with h | h
          · exact chunk_no_nl k v (stringifyV_no_nl v) h
          · exact stringifyFields_no_nl t h
        · simp at h

/-- Stringified array items never contain a raw newline. -/
theorem stringifyItems_no_nl : ∀ l : JList, '\n' ∉ stringifyItems l
  | .nil => by simp [stringifyItems]
  | .cons j t => by
      intro h
      simp only [stringifyItems] at h
      rcases List.mem_cons.mp h with h | h
      · exact absurd h (by decide)
      · rcases List.mem_append.mp h with h | h
        · exact stringifyV_no_nl j h
        · exact stringifyItems_no_nl t h

/-- Stringified object fields never contain a raw newline. -/
theorem stringifyFields_no_nl : ∀ f : JFields, '\n' ∉ stringifyFields f
  | .fnil => by simp [stringifyFields]
  | .fcons k v t => by
      intro h
      simp only [stringifyFields] at h
      rcases List.mem_append.mp h with h | h
      · rcases List.mem_cons.mp h with h | h
        · exact absurd h (by decide)
        · exact chunk_no_nl k v (stringifyV_no_nl v) h
      · exact stringifyFields_no_nl t h
end

section FenceNeedsNewline

/-- A nonempty whitespace-run newline list witnesses a newline. -/
theorem nlPoss_ne_nil_mem (u : Str) (h : nlPossInWsRun u ≠ []) : '\n' ∈ u := by
  induction u with
  | nil => simp [nlPossInWsRun] at h
  | cons c r ih =>
      by_cases hc : jsWsChar c = true
      · by_cases hnl : c = '\n'
        · exact hnl ▸ List.mem_cons_self c r
        · have : nlPossInWsRun r ≠ [] := by
            intro hr
            apply h
            simp [nlPossInWsRun, hc, hnl, hr]
          exact List.mem_cons_of_mem c (ih this)
      · simp [nlPossInWsRun, hc] at h

/-- A successful labeled-fence attempt needs a newline in the text. -/
theorem r1At_some_nl {t : Str} {res : Str × Str} (h : r1At t = some res) :
    '\n' ∈ t := by
  by_cases hs : startsWithS t fenceJsonLit = true
  · cases hnp : nlPossInWsRun (t.drop 7) with
    | nil => simp [r1At, hs, hnp, firstSome] at h
    | cons a l =>
        have hmem : '\n' ∈ t.drop 7 :=
          nlPoss_ne_nil_mem _ (by simp [hnp])
        exact List.drop_subset 7 t hmem
  · simp [r1At, hs] at h

/-- A successful unlabeled-fence attempt needs a newline in the text. -/
theorem r2At_some_nl {t : Str} {res : Str × Str} (h : r2At t = some res) :
    '\n' ∈ t := by
  by_cases hs : startsWithS t fenceTicks = true
  · cases hnp : nlPossInWsRun (t.drop 3) with
    | nil => simp [r2At, hs, hnp, firstSome] at h
    | cons a l =>
        have hmem : '\n' ∈ t.drop 3 :=
          nlPoss_ne_nil_mem _ (by simp [hnp])
        exact List.drop_subset 3 t hmem
  · simp [r2At, hs] at h

/-- The labeled-fence regex cannot match a text without raw newlines. -/
theorem matchR1_eq_none_no_nl (t : Str) (h : '\n' ∉ t) : matchR1 t = none := by
  induction t with
  | nil => rfl
  | cons c r ih =>
      have hr : '\n' ∉ r := fun hc => h (List.mem_cons_of_mem c hc)
      rw [matchR1]
      cases h1 : r1At (c :: r) with
      | some res => exact absurd (r1At_some_nl h1) h
      | none => rw [ih hr]

/-- The unlabeled-fence regex cannot match a text without raw
newlines. -/
theorem matchR2_eq_none_no_nl (t : Str) (h : '\n' ∉ t) : matchR2 t = none := by
  induction t with
  | nil => rfl
  | cons c r ih =>
      have hr : '\n' ∉ r := fun hc => h (List.mem_cons_of_mem c hc)
      rw [matchR2]
      cases h1 : r2At (c :: r) with
      | some res => exact absurd (r2At_some_nl h1) h
      | none => rw [ih hr]

end FenceNeedsNewline

section ClaimC7

/-- The last element of a snoc is the appended element. -/
theorem getLastQ_append_single (l : Str) (c : Char) :
    (l ++ [c]).getLast? = some c := by
  induction l with
  | nil => rfl
  | cons a r ih =>
      rw [List.cons_append]
      cases hr : r ++ [c] with
      | nil => exact absurd hr (by simp)
      | cons b u => rw [List.getLast?_cons_cons, ← hr, ih]

/-- A stringified object is a brace-delimited span. -/
theorem stringify_obj_shape (fs : JFields) :
    ∃ mid, stringifyV (.jobj fs) = '{' :: (mid ++ ['}']) := by
  cases fs with
  | fnil => exact ⟨[], by simp [stringifyV]⟩
  | fcons k v t =>
      refine ⟨('"' :: (stringifyStr k ++ '"' :: ':' :: stringifyV v))
        ++ stringifyFields t, ?_⟩
      simp [stringifyV]

/-- C7: a valid `ProjectConfiguration` (all four required top-level
fields present, with array containers for agents/commands and object
containers for analysis/rules), serialized by the `JSON.stringify`
model, passes through the extraction-and-validation pipeline unchanged:
the pipeline returns exactly the serialization, hence a configuration
deeply equal to the input (the parse hypothesis is the standard
`JSON.parse`/`JSON.stringify` inverse fact of the platform model at this
configuration). -/
theorem C7_pipeline_roundtrip (fs : JFields)
    (hparse : parseJson (stringifyV (.jobj fs)) = some (.jobj fs))
    (hpa : ∃ o, lookupF fs ("projectAnalysis").data = some (.jobj o))
    (hra : ∃ l, lookupF fs ("recommendedAgents").data = some (.jarr l))
    (hrc : ∃ l, lookupF fs ("recommendedCommands").data = some (.jarr l))
    (hcr : ∃ o, lookupF fs ("claudeRules").data = some (.jobj o)) :
    analyzeValidate (stringifyV (.jobj fs)) = .ok (stringifyV (.jobj fs)) := by
  have hnl : '\n' ∉ stringifyV (.jobj fs) := stringifyV_no_nl _
  obtain ⟨mid, hmid⟩ := stringify_obj_shape fs
  have hh : (stringifyV (.jobj fs)).head? = some '{' := by rw [hmid]; rfl
  have hl : (stringifyV (.jobj fs)).getLast? = some '}' := by
    rw [hmid, ← List.cons_append]
    exact getLastQ_append_single _ _
  have hm3 : matchR3 (stringifyV (.jobj fs))
      = some (stringifyV (.jobj fs), stringifyV (.jobj fs)) := by
    have := matchR3_embedded [] (stringifyV (.jobj fs)) []
      (by simp) (by simp) hh hl
    simpa using this
  have htr : trimS (stringifyV (.jobj fs)) = stringifyV (.jobj fs) :=
    trimS_eq_self hh (by decide) hl (by decide)
  have hne : stringifyV (.jobj fs) ≠ [] := by
    rw [hmid]; simp
  have hex : extractJson (stringifyV (.jobj fs)) = stringifyV (.jobj fs) := by
    have := extractJson_of_matchR3 (matchR1_eq_none_no_nl _ hnl)
      (matchR2_eq_none_no_nl _ hnl) hm3 hne (htr ▸ hparse)
    rwa [htr] at this
  obtain ⟨pa, hpa⟩ := hpa
  obtain ⟨ra, hra⟩ := hra
  obtain ⟨rc, hrc⟩ := hrc
  obtain ⟨cr, hcr⟩ := hcr
  have hmiss : requiredFields.filter (fun f => !hasOwnF fs f) = [] := by
    simp [requiredFields, List.filter, hasOwnF, hpa, hra, hrc, hcr]
  simp only [analyzeValidate, hex, hparse, validateParsedFields, hmiss,
    List.isEmpty_nil, if_pos]

/-- Witness for C7 at a concrete valid configuration. -/
theorem C7_pipeline_roundtrip_witness :
    analyzeValidate (stringifyV (.jobj
      (.fcons ("projectAnalysis").data (.jobj .fnil)
        (.fcons ("recommendedAgents").data (.jarr .nil)
          (.fcons ("recommendedCommands").data (.jarr .nil)
            (.fcons ("claudeRules").data (.jobj .fnil) .fnil))))))
      = .ok (stringifyV (.jobj
      (.fcons ("projectAnalysis").data (.jobj .fnil)
        (.fcons ("recommendedAgents").data (.jarr .nil)
          (.fcons ("recommendedCommands").data (.jarr .nil)
            (.fcons ("claudeRules").data (.jobj .fnil) .fnil)))))) :=
  C7_pipeline_roundtrip _ (by decide) ⟨.fnil, by decide⟩ ⟨.nil, by decide⟩
    ⟨.nil, by decide⟩ ⟨.fnil, by decide⟩

end ClaimC7

section FieldLemmas

/-- Looking up the key just set yields the new value. -/
theorem lookupF_setF_self : ∀ (fs : JFields) (k : Str) (v : Json),
    lookupF (setF fs k v) k = some v
  | .fnil, k, v => by simp [setF, lookupF]
  | .fcons k0 v0 t, k, v => by
      by_cases h : k0 = k
      · simp [setF, h, lookupF]
      · simp [setF, h, lookupF, lookupF_setF_self t k v]

/-- Setting one key leaves other keys unchanged. -/
theorem lookupF_setF_ne : ∀ (fs : JFields) (k : Str) (v : Json) (k2 : Str),
    k ≠ k2 → lookupF (setF fs k v) k2 = lookupF fs k2
  | .fnil, k, v, k2, h => by simp [setF, lookupF, h]
  | .fcons k0 v0 t, k, v, k2, h => by
      by_cases h0 : k0 = k
      · subst h0; simp [setF, lookupF, h]
      · simp [setF, h0, lookupF, lookupF_setF_ne t k v k2 h]

/-- An absent property reads as `undefined`. -/
theorem lookupF_eq_none (fs : JFields) (k : Str)
    (h : hasOwnF fs k = false) : lookupF fs k = none := by
  cases h2 : lookupF fs k with
  | none => rfl
  | some v => rw [hasOwnF, h2] at h; simp at h

end FieldLemmas

section ClaimC2C10

/-- C2: on any input whose extracted JSON does not parse even after all
repairs, the permissive path (`analyzeCodebase`) returns — without
throwing — the keyword-scan fallback configuration, in which all four
required top-level fields are populated, while the strict paths
(`generateFromIdea`, and the spec-modelled strict policy) raise the
ParseFailure-class error. -/
theorem C2_unparseable_policy (text : Str)
    (hp : parseJson (extractJson text) = none) :
    ∃ cfg : JFields, createIntelligentFallback text = some (.jobj cfg) ∧
      analyzeValidate text = .ok (stringifyV (.jobj cfg)) ∧
      (∀ k ∈ requiredFields, hasOwnF cfg k = true) ∧
      genIdeaValidate text = .error .parseFailure ∧
      strictValidate text = .error .parseFailure := by
  refine ⟨_, rfl, ?_, ?_, ?_, ?_⟩
  · simp only [analyzeValidate, hp]
    rfl
  · intro k hk
    simp only [requiredFields, List.mem_cons, List.mem_singleton] at hk
    rcases hk with rfl | rfl | rfl | hk
    · rfl
    · rfl
    · rfl
    · simp at hk
      rw [hk]
      rfl
  · simp only [genIdeaValidate, hp]
  · simp only [strictValidate, hp]

/-- Witness for C2 at the literal spec input. -/
theorem C2_unparseable_policy_witness :
    parseJson (extractJson ("This is not valid JSON at all").data) = none ∧
    ∃ cfg : JFields,
      createIntelligentFallback ("This is not valid JSON at all").data
        = some (.jobj cfg) ∧
      analyzeValidate ("This is not valid JSON at all").data
        = .ok (stringifyV (.jobj cfg)) ∧
      (∀ k ∈ requiredFields, hasOwnF cfg k = true) ∧
      genIdeaValidate ("This is not valid JSON at all").data
        = .error .parseFailure ∧
      strictValidate ("This is not valid JSON at all").data
        = .error .parseFailure :=
  ⟨by decide, C2_unparseable_policy _ (by decide)⟩

/-- C10: the intelligent-fallback path exists only in `analyzeCodebase`:
whenever extraction followed by JSON parsing fails, `generateFromIdea`
throws the `Failed to extract valid JSON` error and never returns a
fallback, while `analyzeCodebase` on the same text returns the
keyword-scan fallback configuration instead of throwing. -/
theorem C10_fallback_only_in_analyze (text : Str)
    (hp : parseJson (extractJson text) = none) :
    genIdeaValidate text = .error .parseFailure ∧
    ∃ cfg : Json, createIntelligentFallback text = some cfg ∧
      analyzeValidate text = .ok (stringifyV cfg) := by
  refine ⟨?_, _, rfl, ?_⟩
  · simp only [genIdeaValidate, hp]
  · simp only [analyzeValidate, hp]
    rfl

/-- Witness for C10 at a fallback-triggering completion. -/
theorem C10_fallback_only_in_analyze_witness :
    parseJson (extractJson ("I could not produce structured output").data) = none ∧
    (genIdeaValidate ("I could not produce structured output").data
        = .error .parseFailure ∧
      ∃ cfg : Json,
        createIntelligentFallback ("I could not produce structured output").data
          = some cfg ∧
        analyzeValidate ("I could not produce structured output").data
          = .ok (stringifyV cfg)) :=
  ⟨by decide, C10_fallback_only_in_analyze _ (by decide)⟩

end ClaimC2C10

section ClaimC1C8

/-- The required-structure check on an object lacking
`recommendedCommands` synthesizes the empty array for it and leaves it
untouched by the later default injections. -/
theorem validateParsedFields_missing_commands (fs : JFields) (extracted : Str)
    (hmiss : hasOwnF fs ("recommendedCommands").data = false) :
    ∃ fs2, validateParsedFields (.jobj fs) extracted
        = some (stringifyV (.jobj fs2)) ∧
      lookupF fs2 ("recommendedCommands").data = some (.jarr .nil) := by
  have hmem : ("recommendedCommands").data
      ∈ requiredFields.filter (fun f => !hasOwnF fs f) :=
    List.mem_filter.mpr ⟨by simp [requiredFields], by rw [hmiss]; rfl⟩
  have hlk : lookupF fs ("recommendedCommands").data = none :=
    lookupF_eq_none fs _ hmiss
  simp only [validateParsedFields]
  cases hf : requiredFields.filter (fun f => !hasOwnF fs f) with
  | nil => rw [hf] at hmem; simp at hmem
  | cons m ms =>
      simp only [List.isEmpty_cons, Bool.false_eq_true, if_false]
      set fs1 := if jsTruthyO (lookupF fs ("recommendedAgents").data) then fs
        else setF fs ("recommendedAgents").data (.jarr .nil) with hfs1
      have h1 : lookupF fs1 ("recommendedCommands").data = none := by
        rw [hfs1]
        by_cases hc : jsTruthyO (lookupF fs ("recommendedAgents").data) = true
        · simp [hc, hlk]
        · simp only [Bool.not_eq_true] at hc
          rw [if_neg (by rw [hc]; simp),
            lookupF_setF_ne fs ("recommendedAgents").data (.jarr .nil)
              ("recommendedCommands").data (by decide), hlk]
      rw [h1]
      simp only [jsTruthyO, Bool.false_eq_true, if_false]
      set fs2 := setF fs1 ("recommendedCommands").data (.jarr .nil) with hfs2
      have h2 : lookupF fs2 ("recommendedCommands").data = some (.jarr .nil) :=
        lookupF_setF_self fs1 _ _
      set fs3 := if jsTruthyO (lookupF fs2 ("recommendedHooks").data) then fs2
        else setF fs2 ("recommendedHooks").data (.jobj .fnil) with hfs3
      have h3 : lookupF fs3 ("recommendedCommands").data = some (.jarr .nil) := by
        rw [hfs3]
        by_cases hc : jsTruthyO (lookupF fs2 ("recommendedHooks").data) = true
        · simp [hc, h2]
        · simp only [Bool.not_eq_true] at hc
          rw [if_neg (by rw [hc]; simp),
            lookupF_setF_ne fs2 ("recommendedHooks").data (.jobj .fnil)
              ("recommendedCommands").data (by decide), h2]
      set fs4 := if jsTruthyO (lookupF fs3 ("claudeRules").data) then fs3
        else setF fs3 ("claudeRules").data defaultClaudeRules with hfs4
      have h4 : lookupF fs4 ("recommendedCommands").data = some (.jarr .nil) := by
        rw [hfs4]
        by_cases hc : jsTruthyO (lookupF fs3 ("claudeRules").data) = true
        · simp [hc, h3]
        · simp only [Bool.not_eq_true] at hc
          rw [if_neg (by rw [hc]; simp),
            lookupF_setF_ne fs3 ("claudeRules").data defaultClaudeRules
              ("recommendedCommands").data (by decide), h3]
      exact ⟨fs4, rfl, h4⟩

/-- C8: under the permissive policy, an input whose extracted JSON
parses to an object lacking `recommendedCommands` yields a returned
configuration in which `recommendedCommands` is the empty array, and the
validator does not fail at this stage. -/
theorem C8_permissive_missing_commands (text : Str) (fs : JFields)
    (hp : parseJson (extractJson text) = some (.jobj fs))
    (hmiss : hasOwnF fs ("recommendedCommands").data = false) :
    ∃ fs2, analyzeValidate text = .ok (stringifyV (.jobj fs2)) ∧
      lookupF fs2 ("recommendedCommands").data = some (.jarr .nil) := by
  obtain ⟨fs2, hv, hlk⟩ :=
    validateParsedFields_missing_commands fs (extractJson text) hmiss
  refine ⟨fs2, ?_, hlk⟩
  simp only [analyzeValidate, hp, hv]

/-- Witness for C8: an object with `projectAnalysis`,
`recommendedAgents` and `claudeRules` but no `recommendedCommands`. -/
theorem C8_permissive_missing_commands_witness :
    parseJson (extractJson ("\x7b\"projectAnalysis\":\x7b\x7d,\"recommendedAgents\":[1],\"claudeRules\":\x7b\"a\":[],\"b\":[]\x7d\x7d").data)
        = some (.jobj
          (.fcons ("projectAnalysis").data (.jobj .fnil)
            (.fcons ("recommendedAgents").data (.jarr (.cons (.jnum 1) .nil))
              (.fcons ("claudeRules").data
                (.jobj (.fcons ("a").data (.jarr .nil)
                  (.fcons ("b").data (.jarr .nil) .fnil))) .fnil)))) ∧
    ∃ fs2,
      analyzeValidate ("\x7b\"projectAnalysis\":\x7b\x7d,\"recommendedAgents\":[1],\"claudeRules\":\x7b\"a\":[],\"b\":[]\x7d\x7d").data
          = .ok (stringifyV (.jobj fs2)) ∧
      lookupF fs2 ("recommendedCommands").data = some (.jarr .nil) :=
  ⟨by decide, C8_permissive_missing_commands
    ("\x7b\"projectAnalysis\":\x7b\x7d,\"recommendedAgents\":[1],\"claudeRules\":\x7b\"a\":[],\"b\":[]\x7d\x7d").data
    (.fcons ("projectAnalysis").data (.jobj .fnil)
      (.fcons ("recommendedAgents").data (.jarr (.cons (.jnum 1) .nil))
        (.fcons ("claudeRules").data
          (.jobj (.fcons ("a").data (.jarr .nil)
            (.fcons ("b").data (.jarr .nil) .fnil))) .fnil)))
    (by decide) (by decide)⟩

/-- C1: under the spec-modelled strict policy, an input whose extracted
JSON parses to an object lacking `recommendedCommands` fails with a
QualityError whose validation-failure list contains an entry naming
`recommendedCommands`, rather than returning any configuration. -/
theorem C1_strict_missing_commands (text : Str) (fs : JFields)
    (hp : parseJson (extractJson text) = some (.jobj fs))
    (hmiss : hasOwnF fs ("recommendedCommands").data = false) :
    ∃ failures, strictValidate text = .error (.quality failures) ∧
      ∃ f ∈ failures, containsS f (("recommendedCommands").data) = true := by
  have hmem : ("missing ").data ++ ("recommendedCommands").data
      ∈ strictQualityFailures fs := by
    unfold strictQualityFailures
    refine List.mem_append.mpr (Or.inl (List.mem_append.mpr (Or.inl ?_)))
    exact List.mem_map_of_mem _
      (List.mem_filter.mpr ⟨by simp [requiredFields], by rw [hmiss]; rfl⟩)
  refine ⟨strictQualityFailures fs, ?_, ?_⟩
  · cases hq : strictQualityFailures fs with
    | nil => rw [hq] at hmem; simp at hmem
    | cons m ms =>
        simp only [strictValidate, hp, hq, List.isEmpty_cons,
          Bool.false_eq_true, if_false]
  · exact ⟨_, hmem, by decide⟩

/-- Witness for C1 at the test suite's fenced incomplete response. -/
theorem C1_strict_missing_commands_witness :
    parseJson (extractJson ("Here:\n\x60\x60\x60json\n\x7b\"projectAnalysis\": \"Basic project analysis\"\x7d\n\x60\x60\x60").data)
        = some (.jobj (.fcons ("projectAnalysis").data
            (.jstr ("Basic project analysis").data) .fnil)) ∧
    ∃ failures,
      strictValidate ("Here:\n\x60\x60\x60json\n\x7b\"projectAnalysis\": \"Basic project analysis\"\x7d\n\x60\x60\x60").data
          = .error (.quality failures) ∧
      ∃ f ∈ failures, containsS f (("recommendedCommands").data) = true :=
  ⟨by decide, C1_strict_missing_commands
    ("Here:\n\x60\x60\x60json\n\x7b\"projectAnalysis\": \"Basic project analysis\"\x7d\n\x60\x60\x60").data
    (.fcons ("projectAnalysis").data
      (.jstr ("Basic project analysis").data) .fnil)
    (by decide) (by decide)⟩

end ClaimC1C8

section ClaimC6

/-- C6 (amended): for a candidate `s` that is an object text (no
backticks, `{` first, `}` last) broken only by trailing commas — i.e.
the comma-stripping transforms alone repair it: the quote and key-quote
transforms are inert on it, the corrected text parses, and its braces
balance exactly at its end — permissive validation of `s` returns the
same configuration as validating the comma-corrected text directly. -/
theorem C6_trailing_comma_roundtrip (s : Str)
    (hh : s.head? = some '{') (hl : s.getLast? = some '}') (hbt : btick ∉ s)
    (hps : parseJson s = none)
    (hb : quoteRepl (stripTrailingCommas s) = stripTrailingCommas s)
    (hc : keyQuote (stripTrailingCommas s) = stripTrailingCommas s)
    (hd : collapseDq (stripTrailingCommas s) = stripTrailingCommas s)
    (hch : (commaCorrect s).head? = some '{')
    (hcl : (commaCorrect s).getLast? = some '}')
    (hcbt : btick ∉ commaCorrect s)
    (hscan : scanZeroGo (commaCorrect s) 0 0 = some (commaCorrect s).length)
    (vfs : JFields) (hpc : parseJson (commaCorrect s) = some (.jobj vfs)) :
    analyzeValidate s = analyzeValidate (commaCorrect s) := by
  have htr : trimS s = s := trimS_eq_self hh (by decide) hl (by decide)
  have hne : s ≠ [] := by intro h0; rw [h0] at hh; simp at hh
  have hcne : commaCorrect s ≠ [] := by
    intro h0; rw [h0] at hch; simp at hch
  have hctr : trimS (commaCorrect s) = commaCorrect s :=
    trimS_eq_self hch (by decide) hcl (by decide)
  have hm3 : matchR3 s = some (s, s) := by
    have := matchR3_embedded [] s [] (by simp) (by simp) hh hl
    simpa using this
  have hm3c : matchR3 (commaCorrect s) = some (commaCorrect s, commaCorrect s) := by
    have := matchR3_embedded [] (commaCorrect s) [] (by simp) (by simp) hch hcl
    simpa using this
  have hidx : idxOfChar (commaCorrect s) '{' = some 0 := by
    obtain ⟨tb, htb⟩ : ∃ tb, commaCorrect s = '{' :: tb := by
      cases h0 : commaCorrect s with
      | nil => exact absurd h0 hcne
      | cons c r =>
          rw [h0] at hch
          simp [List.head?] at hch
          exact ⟨r, by rw [hch]⟩
    rw [htb]
    exact idxOfChar_cons_self '{' tb
  have hrep : repairJson s = some (commaCorrect s) := by
    unfold repairJson
    dsimp only
    rw [hb, hc, hd]
    rw [show stripCommaClose ']' (stripCommaClose '}' (stripTrailingCommas s))
        = commaCorrect s from rfl]
    rw [hidx]
    simp only [List.drop_zero, hscan, List.take_length]
  have hps2 : parseJson (trimS s) = none := by rw [htr]; exact hps
  have hrep2 : repairJson (trimS s) = some (commaCorrect s) := by
    rw [htr]; exact hrep
  have hexS : extractJson s = commaCorrect s :=
    extractJson_of_matchR3_repair (matchR1_eq_none _ hbt)
      (matchR2_eq_none _ hbt) hm3 hne hps2 hrep2 hpc
  have hpc2 : parseJson (trimS (commaCorrect s)) = some (.jobj vfs) := by
    rw [hctr]; exact hpc
  have hexC : extractJson (commaCorrect s) = commaCorrect s := by
    have := extractJson_of_matchR3 (matchR1_eq_none _ hcbt)
      (matchR2_eq_none _ hcbt) hm3c hcne hpc2
    rwa [hctr] at this
  simp only [analyzeValidate, hexS, hexC, hpc]
  cases hvp : validateParsedFields (.jobj vfs) (commaCorrect s) with
  | some r => rfl
  | none =>
      exfalso
      revert hvp
      simp only [validateParsedFields]
      split
      · simp
      · simp

/-- Witness for C6 (amended) at a one-field object with one trailing
comma. -/
theorem C6_trailing_comma_roundtrip_witness :
    commaCorrect ("\x7b\"a\":1,\x7d").data = ("\x7b\"a\":1\x7d").data ∧
    analyzeValidate ("\x7b\"a\":1,\x7d").data
      = analyzeValidate (commaCorrect ("\x7b\"a\":1,\x7d").data) :=
  ⟨by decide,
    C6_trailing_comma_roundtrip ("\x7b\"a\":1,\x7d").data
      (by decide) (by decide) (by decide) (by decide) (by decide) (by decide)
      (by decide) (by decide) (by decide) (by decide) (by decide)
      (.fcons ("a").data (.jnum 1) .fnil) (by decide)⟩

set_option maxRecDepth 8000 in
/-- C6 (counterexample): the claim as stated fails on a configuration
object whose string value contains a word followed by a colon — the
bare-key-quoting repair corrupts it, the pipeline falls through to the
keyword fallback, and the result differs (both as a string and as a
parsed configuration) from validating the comma-corrected text
directly. -/
theorem C6_trailing_comma_counterexample :
    commaCorrect c6Input = c6Corrected ∧
    analyzeValidate c6Input ≠ analyzeValidate c6Corrected ∧
    (analyzeValidate c6Input).toOption.bind parseJson
      ≠ (analyzeValidate c6Corrected).toOption.bind parseJson := by
  refine ⟨by decide, by decide, by decide⟩

end ClaimC6

section ClaimC9

set_option maxRecDepth 8000 in
/-- C9 (amended): on the literal fenced input, extraction yields exactly
the inner object string, and permissive validation returns it unchanged
(all four required fields are present, so no defaults are injected and
`claudeRules` stays the empty object). -/
theorem C9_fenced_extraction :
    extractJson c9Input = c9Obj ∧ analyzeValidate c9Input = .ok c9Obj := by
  refine ⟨by decide, by decide⟩

set_option maxRecDepth 8000 in
/-- C9 (counterexample): the returned configuration's `claudeRules` is
the empty object — the fixed four-item rule lists the claim expects are
not synthesized (defaults are injected only when a required field is
missing and `claudeRules` itself is falsy). -/
theorem C9_fenced_extraction_counterexample :
    extractJson c9Input = c9Obj ∧
    analyzeValidate c9Input = .ok c9Obj ∧
    parseJson c9Obj = some (.jobj
      (.fcons ("projectAnalysis").data (.jobj .fnil)
        (.fcons ("recommendedAgents").data (.jarr .nil)
          (.fcons ("recommendedCommands").data (.jarr .nil)
            (.fcons ("claudeRules").data (.jobj .fnil) .fnil))))) ∧
    hasOwnF .fnil ("codingStandards").data = false := by
  refine ⟨by decide, by decide, by decide, by decide⟩

end ClaimC9
